import Mathlib

/-!
# Verification of the bilby conditional-prior engine and DynamicDynesty checkpoint loop

Shallow embedding of:
* the conditional prior evaluation engine (`ConditionalBasePrior`,
  `ConditionalPriorDict`) — modelled from the specification (spec.md §3, §4.2,
  §4.3, §7), since only its test-suite is present in the repository excerpt;
* the checkpointed run loop of `DynamicDynesty._run_external_sampler_with_checkpointing`
  (`bilby/core/sampler/dynamic_dynesty.py`), translated from the source.

Numeric values are idealised over an arbitrary linear ordered field (so that
concrete computations can be carried out over `ℚ`), with `ℝ` used where the
logarithm/exponential laws are involved.
-/

deriving instance DecidableEq for Except

namespace Bilby

/-- The two exception types of the conditional-prior engine (spec §7):
`IllegalRequiredVariablesException` and `IllegalConditionsException`. -/
inductive PriorError where
  | illegalConditions
  | illegalRequiredVariables
deriving DecidableEq, Repr

/-- Modelled from the spec: the parameter record of a (uniform) distribution —
`minimum` and `maximum` domain bounds (spec §3, "Distribution" attributes).
The concrete distribution catalogue is out of the repository excerpt; the
tests exercise `Uniform`/`ConditionalUniform`, whose parameters are exactly
these bounds. -/
structure Params (α : Type) where
  minimum : α
  maximum : α
deriving DecidableEq, Repr

variable {α : Type} [LinearOrderedField α]

/-- Modelled from the spec: the uniform density,
`prob(x) = 1/(maximum-minimum)` on `[minimum, maximum]` and `0` outside
(spec §4.1: density 0 outside the bounds, integrating to 1 on them). -/
def uniformProb (p : Params α) (x : α) : α :=
  (if p.minimum ≤ x ∧ x ≤ p.maximum then 1 else 0) / (p.maximum - p.minimum)

/-- Modelled from the spec: the uniform cumulative distribution,
`(x - minimum)/(maximum - minimum)` clipped into `[0,1]`
(spec §4.1: monotone, `cdf(minimum)=0`, `cdf(maximum)=1`). -/
def uniformCdf (p : Params α) (x : α) : α :=
  min (max ((x - p.minimum) / (p.maximum - p.minimum)) 0) 1

/-- Modelled from the spec: the uniform inverse CDF,
`rescale(u) = minimum + u * (maximum - minimum)` (spec §4.1, §121:
the map from `[0,1]` draws to the target domain). -/
def uniformRescale (p : Params α) (u : α) : α :=
  p.minimum + u * (p.maximum - p.minimum)

/-- Modelled from the spec: an entry of a `DistributionCollection` — the tagged
variant of spec §9: either an unconditional distribution, or a conditional one
carrying its reference parameters, the names of its required variables, and a
condition function mapping (reference parameters, realized required values in
declaration order) to the updated parameter set (spec §2, §3). -/
inductive PriorEntry (α : Type) where
  | unconditional (params : Params α)
  | conditional (reference : Params α) (required : List String)
      (conditionFunc : Params α → List α → Params α)

namespace PriorEntry

/-- The declared required-variable names of an entry (empty for an
unconditional entry). -/
def requiredVariables : PriorEntry α → List String
  | .unconditional _ => []
  | .conditional _ req _ => req

/-- Modelled from the spec: resolve the entry's current parameters from an
environment of already-realized variable values.  An unconditional entry keeps
its parameters; a conditional one applies its condition function to the values
of its required variables, failing with `IllegalConditions` when one of them is
absent (spec §4.3: the missing-dependency rule). -/
def paramsAt : PriorEntry α → List (String × α) → Except PriorError (Params α)
  | .unconditional p, _ => .ok p
  | .conditional ref req f, env =>
    match req.mapM (fun v => env.lookup v) with
    | some vals => .ok (f ref vals)
    | none => .error .illegalConditions

end PriorEntry

/-- Modelled from the spec: a `DistributionCollection`
(`ConditionalPriorDict`): an insertion-ordered mapping from variable name to
entry (spec §3). -/
structure PriorDict (α : Type) where
  entries : List (String × PriorEntry α)

namespace PriorDict

/-- The keys of the collection, in insertion order. -/
def keys (d : PriorDict α) : List String :=
  d.entries.map Prod.fst

/-- Modelled from the spec: the unconditional keys, in insertion order
(spec §3, §4.3). -/
def unconditionalKeys (d : PriorDict α) : List String :=
  d.entries.filterMap fun ke =>
    match ke.2 with
    | .unconditional _ => some ke.1
    | .conditional _ _ _ => none

/-- The conditional entries as (key, required variables) pairs, in insertion
order. -/
def conditionalPairs (d : PriorDict α) : List (String × List String) :=
  d.entries.filterMap fun ke =>
    match ke.2 with
    | .unconditional _ => none
    | .conditional _ req _ => some (ke.1, req)

end PriorDict

/-- Modelled from the spec: the dependency-resolution loop of spec §4.3 —
repeatedly append every not-yet-ordered conditional key whose required
variables are all already ordered; fail with `IllegalConditions` when no
progress can be made (cycle, or required variable absent from the
collection).  `fuel` bounds the number of rounds; each productive round
resolves at least one key, so the number of conditional entries suffices. -/
def resolveLoop : ℕ → List String → List (String × List String) →
    Except PriorError (List String)
  | _, resolved, [] => .ok resolved
  | 0, _, _ :: _ => .error .illegalConditions
  | fuel + 1, resolved, kr :: rest =>
    let remaining := kr :: rest
    let ready := remaining.filter fun kr => kr.2.all fun v => resolved.contains v
    if ready.isEmpty then .error .illegalConditions
    else
      resolveLoop fuel (resolved ++ ready.map Prod.fst)
        (remaining.filter fun kr => !(kr.2.all fun v => resolved.contains v))

namespace PriorDict

/-- Modelled from the spec: `sorted_keys` — the evaluation order produced by
dependency resolution: unconditional keys first, in insertion order, followed
by conditional keys in the order their dependencies become satisfied
(spec §3, §4.3).  `IllegalConditions` when resolution fails. -/
def sortedKeys (d : PriorDict α) : Except PriorError (List String) :=
  resolveLoop d.conditionalPairs.length d.unconditionalKeys d.conditionalPairs

/-- Modelled from the spec: `__delitem__` — removing a key from the collection
(resolution is recomputed by every subsequent access, spec §3 lifecycle). -/
def delitem (d : PriorDict α) (k : String) : PriorDict α :=
  ⟨d.entries.filter fun ke => !(ke.1 == k)⟩

/-- Modelled from the spec: `__setitem__` — replacing the entry of an existing
key or appending a new one (spec §4.3 structural mutation). -/
def setItem (d : PriorDict α) (k : String) (e : PriorEntry α) : PriorDict α :=
  if (d.entries.map Prod.fst).contains k then
    ⟨d.entries.map fun ke => if ke.1 == k then (k, e) else ke⟩
  else ⟨d.entries ++ [(k, e)]⟩

end PriorDict

/-- Modelled from the spec: the core of `sample`/`sample_subset` — iterate the
resolved order, for each key resolving the entry's parameters from the
already-realized values and appending the rescaled uniform draw `draws k`
(spec §4.3: later entries can reference earlier results; the underlying
sampler draws `u ∈ [0,1]` and maps it through `rescale`). -/
def sampleGo (entries : List (String × PriorEntry α)) (draws : String → α) :
    List String → List (String × α) → Except PriorError (List (String × α))
  | [], env => .ok env
  | k :: ks, env =>
    match entries.lookup k with
    | none => .error .illegalConditions
    | some e =>
      match e.paramsAt env with
      | .error err => .error err
      | .ok p => sampleGo entries draws ks (env ++ [(k, uniformRescale p (draws k))])

/-- The factors of the collection density: for each key of the resolved order,
the entry's density at the sample's value for that key, with parameters
resolved from the sample (spec §4.3 `prob`). -/
def probGo (entries : List (String × PriorEntry α)) (sample : List (String × α)) :
    List String → Except PriorError (List α)
  | [] => .ok []
  | k :: ks =>
    match entries.lookup k with
    | none => .error .illegalConditions
    | some e =>
      match e.paramsAt sample with
      | .error err => .error err
      | .ok p =>
        match sample.lookup k with
        | none => .error .illegalConditions
        | some x =>
          match probGo entries sample ks with
          | .error err => .error err
          | .ok rest => .ok (uniformProb p x :: rest)

/-- The per-key cumulative distribution values: for each key of the resolved
order, the entry's cdf at the sample's value for that key, parameters resolved
from the sample (spec §4.3 `cdf`). -/
def cdfGo (entries : List (String × PriorEntry α)) (sample : List (String × α)) :
    List String → Except PriorError (List (String × α))
  | [] => .ok []
  | k :: ks =>
    match entries.lookup k with
    | none => .error .illegalConditions
    | some e =>
      match e.paramsAt sample with
      | .error err => .error err
      | .ok p =>
        match sample.lookup k with
        | none => .error .illegalConditions
        | some x =>
          match cdfGo entries sample ks with
          | .error err => .error err
          | .ok rest => .ok ((k, uniformCdf p x) :: rest)

/-- The core of `rescale`: iterate the (restricted) resolved order; each key
reads its `[0,1]` value from `theta` at the key's position in the
caller-supplied `keys`, resolves parameters from the values realized so far in
this call, and appends its rescaled value (spec §4.3 `rescale`: each newly
realized value is threaded into subsequent conditional lookups exactly as
`sample` does). -/
def rescaleGo (entries : List (String × PriorEntry α)) (keys : List String)
    (theta : List α) :
    List String → List (String × α) → Except PriorError (List (String × α))
  | [], env => .ok env
  | k :: ks, env =>
    match entries.lookup k with
    | none => .error .illegalConditions
    | some e =>
      match e.paramsAt env with
      | .error err => .error err
      | .ok p =>
        match theta.get? (keys.indexOf k) with
        | none => .error .illegalConditions
        | some u => rescaleGo entries keys theta ks (env ++ [(k, uniformRescale p u)])

namespace PriorDict

/-- Modelled from the spec: `sample(size=1)` as a mapping name → value — draw
each variable in resolved order, threading realized values (spec §4.3).  The
underlying per-variable `[0,1]` draws are supplied by `draws`. -/
def sample (d : PriorDict α) (draws : String → α) :
    Except PriorError (List (String × α)) :=
  match d.sortedKeys with
  | .error e => .error e
  | .ok order => sampleGo d.entries draws order []

/-- Modelled from the spec: `sample_subset(keys)` — build the sub-collection
restricted to the requested keys, resolve it (failing with
`IllegalConditions` when the subset omits a required upstream variable of an
included key), then sample it in resolved order (spec §4.3). -/
def sampleSubset (d : PriorDict α) (keys : List String) (draws : String → α) :
    Except PriorError (List (String × α)) :=
  let sub : PriorDict α := ⟨d.entries.filter fun ke => keys.contains ke.1⟩
  match sub.sortedKeys with
  | .error e => .error e
  | .ok order => sampleGo sub.entries draws order []

/-- The list of per-variable density factors of `prob`/`ln_prob`
(spec §4.3). -/
def probFactors (d : PriorDict α) (sample : List (String × α)) :
    Except PriorError (List α) :=
  match d.sortedKeys with
  | .error e => .error e
  | .ok order => probGo d.entries sample order

/-- Modelled from the spec: `prob(sample)` — the product over the resolved
order of each variable's density at the sample, parameters threaded from the
sample (spec §4.3). -/
def prob (d : PriorDict α) (sample : List (String × α)) : Except PriorError α :=
  (d.probFactors sample).map List.prod

/-- Modelled from the spec: `ln_prob(sample)` — the sum over the resolved
order of each variable's log-density at the sample (spec §4.3), with
`log 0 = -∞` idealised by `Real.log`'s junk value at `0` (the claims about
`ln_prob` are stated on samples of positive density). -/
noncomputable def lnProb (d : PriorDict ℝ) (sample : List (String × ℝ)) :
    Except PriorError ℝ :=
  (d.probFactors sample).map fun fs => (fs.map Real.log).sum

/-- Modelled from the spec: `cdf(sample)` — mapping name → cdf value, one per
key of the resolved order, parameters threaded from the sample (spec §4.3). -/
def cdf (d : PriorDict α) (sample : List (String × α)) :
    Except PriorError (List (String × α)) :=
  match d.sortedKeys with
  | .error e => .error e
  | .ok order => cdfGo d.entries sample order

/-- Modelled from the spec: `rescale(keys, theta)` — thread the
topologically-sorted restriction of `keys` through per-variable `rescale`,
then emit the realized values in the caller's `keys` order (spec §4.3). -/
def rescale (d : PriorDict α) (keys : List String) (theta : List α) :
    Except PriorError (List α) :=
  match d.sortedKeys with
  | .error e => .error e
  | .ok order =>
    match rescaleGo d.entries keys theta (order.filter fun k => keys.contains k) [] with
    | .error e => .error e
    | .ok env =>
      match keys.mapM (fun k => env.lookup k) with
      | some res => .ok res
      | none => .error .illegalConditions

end PriorDict

/-- Modelled from the spec: the name-set comparison of `update_conditions` —
Python's `sorted(kwarg_names) == sorted(required_variables)` (spec §7: the
exact-match sense), i.e. the two name lists are permutations of one
another. -/
def namesMatch : List String → List String → Bool
  | [], [] => true
  | [], _ :: _ => false
  | a :: as, bs => if bs.contains a then namesMatch as (bs.erase a) else false

/-- Modelled from the spec: a single `ConditionalBasePrior` — current
`minimum`/`maximum`, the immutable reference-parameter snapshot captured at
construction, the declared required-variable names, and the condition function
mapping (reference parameters, supplied keyword values) to the new parameter
set (spec §3, §4.2). -/
structure ConditionalBasePrior (α : Type) where
  minimum : α
  maximum : α
  referenceParams : Params α
  requiredVariables : List String
  conditionFunc : Params α → List (String × α) → Params α

namespace ConditionalBasePrior

/-- Modelled from the spec: construction captures the reference-parameter
snapshot from the initial `minimum`/`maximum` (spec §3, glossary
"Reference parameters"). -/
def mk' (minimum maximum : α) (required : List String)
    (conditionFunc : Params α → List (String × α) → Params α) :
    ConditionalBasePrior α :=
  ⟨minimum, maximum, ⟨minimum, maximum⟩, required, conditionFunc⟩

/-- Modelled from the spec: `update_conditions(**kwargs)` (spec §4.2, §7, in
the exact-match sense): when the kwarg names are exactly the declared required
variables, invoke the condition function on the reference parameters and
overwrite each returned attribute; when no keyword is supplied, return
silently without invoking the condition function; otherwise fail with
`IllegalRequiredVariables`.  The returned `Bool` records whether the condition
function was invoked. -/
def updateConditions (p : ConditionalBasePrior α) (kwargs : List (String × α)) :
    Except PriorError (ConditionalBasePrior α × Bool) :=
  if namesMatch (kwargs.map Prod.fst) p.requiredVariables then
    let newParams := p.conditionFunc p.referenceParams kwargs
    .ok ({ p with minimum := newParams.minimum, maximum := newParams.maximum }, true)
  else if kwargs.isEmpty then
    .ok (p, false)
  else
    .error .illegalRequiredVariables

/-- Modelled from the spec: `reset_to_reference_parameters()` — set every
attribute named in the reference-parameter snapshot (here `minimum` and
`maximum`) back to its captured value (spec §4.2). -/
def resetToReferenceParameters (p : ConditionalBasePrior α) :
    ConditionalBasePrior α :=
  { p with minimum := p.referenceParams.minimum,
           maximum := p.referenceParams.maximum }

/-- Modelled from the spec: `ln_prob(x, **kwargs)` instrumented with the list
of keyword-argument sets passed to `update_conditions`: the call with the
passed kwargs first, then the no-argument call issued on the way to the
underlying density (spec §4.2: "`ln_prob` additionally calls
`update_conditions()` a second time with no arguments").  The logarithm is
abstracted as `lnFn` so the call structure can be evaluated over any field. -/
def lnProbTraceWith (lnFn : α → α) (p : ConditionalBasePrior α) (x : α)
    (kwargs : List (String × α)) :
    Except PriorError (α × ConditionalBasePrior α × List (List (String × α))) :=
  match p.updateConditions kwargs with
  | .error e => .error e
  | .ok (p1, _) =>
    match p1.updateConditions [] with
    | .error e => .error e
    | .ok (p2, _) =>
      .ok (lnFn (uniformProb ⟨p2.minimum, p2.maximum⟩ x), p2, [kwargs, []])

end ConditionalBasePrior

/-- A mutation applied to a `ConditionalBasePrior` between construction and a
`reset_to_reference_parameters` call: an `update_conditions` invocation or a
direct assignment to `minimum`/`maximum` (spec §4.2, §8). -/
inductive PriorMutation (α : Type) where
  | updateConditions (kwargs : List (String × α))
  | setMinimum (v : α)
  | setMaximum (v : α)

/-- Apply one mutation; a failing `update_conditions` propagates its exception
and leaves the state unchanged (spec §7: unrecoverable for the current call,
no partial evaluation). -/
def applyMutation (p : ConditionalBasePrior α) : PriorMutation α → ConditionalBasePrior α
  | .updateConditions kwargs =>
    match p.updateConditions kwargs with
    | .ok (p', _) => p'
    | .error _ => p
  | .setMinimum v => { p with minimum := v }
  | .setMaximum v => { p with maximum := v }

/-! ## The DynamicDynesty checkpointed run loop

Shallow embedding of
`DynamicDynesty._run_external_sampler_with_checkpointing`
(`bilby/core/sampler/dynamic_dynesty.py`, lines 207–228).  The external
dynesty sampler is abstracted as a state type `S` with a `run_nested`
transition (taking the current `maxcall` budget) and an `ncall` observation.
-/

/-- The observable events of the checkpoint loop: a `run_nested` invocation
(recording the `maxcall` budget passed and the sampler's `ncall` before and
after), a `write_current_state` checkpoint write, and the final
`_remove_checkpoint`. -/
inductive DDEvent where
  | runNested (maxcall ncallBefore ncallAfter : ℕ)
  | writeState
  | removeCheckpoint
deriving DecidableEq, Repr

/-- The external-sampler configuration of a `DynamicDynesty` run:
`n_check_point`, the `run_nested(maxcall)` state transition, and the `ncall`
counter of the sampler state. -/
structure DDConfig (S : Type) where
  nCheckPoint : ℕ
  runNested : ℕ → S → S
  ncall : S → ℕ

/-- The `while True:` loop of `_run_external_sampler_with_checkpointing`:
`sampler_kwargs["maxcall"] += self.n_check_point`, then
`self.sampler.run_nested(**sampler_kwargs)`; break when
`self.sampler.ncall == old_ncall`, otherwise update `old_ncall`, call
`self.write_current_state()` and iterate.  `fuel` bounds the number of
iterations (the Python loop runs until the external sampler stalls); `none`
means the bound was exhausted before the loop exited. -/
def ddLoop {S : Type} (cfg : DDConfig S) :
    ℕ → ℕ → ℕ → S → Option (S × List DDEvent)
  | 0, _, _, _ => none
  | fuel + 1, maxcall, oldNcall, s =>
    let maxcall' := maxcall + cfg.nCheckPoint
    let s' := cfg.runNested maxcall' s
    if cfg.ncall s' = oldNcall then
      some (s', [.runNested maxcall' oldNcall (cfg.ncall s')])
    else
      match ddLoop cfg fuel maxcall' (cfg.ncall s') s' with
      | none => none
      | some (sf, tr) =>
        some (sf, .runNested maxcall' oldNcall (cfg.ncall s') :: .writeState :: tr)

/-- `_run_external_sampler_with_checkpointing`: initialise
`sampler_kwargs["maxcall"] = self.n_check_point` and
`old_ncall = self.sampler.ncall`, run the loop, then `_remove_checkpoint()`
and return the sampler's results (the final sampler state). -/
def runExternalSamplerWithCheckpointing {S : Type} (cfg : DDConfig S)
    (fuel : ℕ) (s : S) : Option (S × List DDEvent) :=
  match ddLoop cfg fuel cfg.nCheckPoint (cfg.ncall s) s with
  | none => none
  | some (sf, tr) => some (sf, tr ++ [.removeCheckpoint])

/-! ## Concrete fixtures from the test suite

The four-variable chained-uniform collection of
`test/core/prior/conditional_test.py` (`TestConditionalPriorDict.setUp`):
`var_0 ~ Uniform(0, 1)` and three `ConditionalUniform`s whose condition
functions keep `minimum` and set `maximum` to an upstream value
(`condition_func_1(ref, var_0) ↦ max := var_0`,
`condition_func_2(ref, var_0, var_1) ↦ max := var_1`,
`condition_func_3(ref, var_1, var_2) ↦ max := var_2`), inserted in the order
`var_3, var_2, var_0, var_1`. -/

/-- The chained-uniform collection of the test suite, over any ordered
field. -/
def chainDict (α : Type) [LinearOrderedField α] : PriorDict α :=
  ⟨[("var_3", .conditional ⟨0, 1⟩ ["var_1", "var_2"]
        fun ref vals => ⟨ref.minimum, vals.getD 1 0⟩),
    ("var_2", .conditional ⟨0, 1⟩ ["var_0", "var_1"]
        fun ref vals => ⟨ref.minimum, vals.getD 1 0⟩),
    ("var_0", .unconditional ⟨0, 1⟩),
    ("var_1", .conditional ⟨0, 1⟩ ["var_0"]
        fun ref vals => ⟨ref.minimum, vals.getD 0 0⟩)]⟩

/-- `test_sample = dict(var_0=0.7, var_1=0.6, var_2=0.5, var_3=0.4)` of the
test suite. -/
def testSample (α : Type) [LinearOrderedField α] : List (String × α) :=
  [("var_0", 7/10), ("var_1", 6/10), ("var_2", 5/10), ("var_3", 4/10)]

/-- The conditional prior of `TestConditionalPrior.setUp`: `minimum=0`,
`maximum=5`, required variables `test_variable_1`, `test_variable_2`, and a
condition function incrementing every reference parameter by one. -/
def testPrior (α : Type) [LinearOrderedField α] : ConditionalBasePrior α :=
  ConditionalBasePrior.mk' 0 5 ["test_variable_1", "test_variable_2"]
    fun ref _ => ⟨ref.minimum + 1, ref.maximum + 1⟩

/-! ## Helper lemmas -/

/-- `namesMatch` of an empty kwarg list against a nonempty required list is
`false`. -/
lemma namesMatch_nil_of_ne_nil {req : List String} (h : req ≠ []) :
    namesMatch [] req = false := by
  cases req with
  | nil => exact absurd rfl h
  | cons a as => rfl

omit [LinearOrderedField α] in
/-- `update_conditions` with no keyword arguments on a prior with a nonempty
required-variable set is a silent no-op. -/
lemma updateConditions_nil_noop (q : ConditionalBasePrior α)
    (hq : q.requiredVariables ≠ []) :
    q.updateConditions [] = .ok (q, false) := by
  unfold ConditionalBasePrior.updateConditions
  rw [show (([] : List (String × α)).map Prod.fst) = [] from rfl,
    namesMatch_nil_of_ne_nil hq]
  rfl

omit [LinearOrderedField α] in
/-- No mutation changes the reference-parameter snapshot. -/
lemma applyMutation_referenceParams (p : ConditionalBasePrior α)
    (m : PriorMutation α) :
    (applyMutation p m).referenceParams = p.referenceParams := by
  cases m with
  | updateConditions kwargs =>
    simp only [applyMutation, ConditionalBasePrior.updateConditions]
    split_ifs <;> rfl
  | setMinimum v => rfl
  | setMaximum v => rfl

omit [LinearOrderedField α] in
/-- No sequence of mutations changes the reference-parameter snapshot. -/
lemma foldl_applyMutation_referenceParams (ms : List (PriorMutation α))
    (p : ConditionalBasePrior α) :
    (ms.foldl applyMutation p).referenceParams = p.referenceParams := by
  induction ms generalizing p with
  | nil => rfl
  | cons m ms ih => rw [List.foldl_cons, ih, applyMutation_referenceParams]

/-! ## Claim theorems (single-prior contract and concrete chain) -/

/-- Claim C5: for the chained collection of four uniforms `var_0..var_3`
(each conditional prior's maximum set from an upstream sampled value), if
every underlying uniform draw is fixed at `0.5` then `sample_subset` over all
four keys returns exactly
`{var_0: 0.5, var_1: 0.25, var_2: 0.125, var_3: 0.0625}`. -/
theorem sampleSubset_chain_all_keys_halves :
    (chainDict ℚ).sampleSubset ["var_0", "var_1", "var_2", "var_3"]
        (fun _ => 1/2) =
      .ok [("var_0", 1/2), ("var_1", 1/4), ("var_2", 1/8), ("var_3", 1/16)] := by
  simp [chainDict, PriorDict.sampleSubset, PriorDict.sortedKeys,
    PriorDict.conditionalPairs, PriorDict.unconditionalKeys,
    resolveLoop, sampleGo, PriorEntry.paramsAt, List.lookup,
    List.mapM, List.mapM.loop, uniformRescale, Option.bind,
    List.getD, Option.getD, List.getElem?_cons_succ, List.getElem?_cons_zero]
  norm_num

/-- Claim C4, counterexample: on the 4-variable chained-uniform collection at
`test_sample = {var_0:0.7, var_1:0.6, var_2:0.5, var_3:0.4}`, `prob` returns
`100/21 = 1/(0.7*0.6*0.5)` — the product of the reciprocal realized maxima
`1, 0.7, 0.6, 0.5` — and in particular does NOT return
`1/(0.7*0.6*0.5*0.4) = 250/21` as the claim states. -/
theorem prob_chain_counterexample :
    (chainDict ℚ).prob (testSample ℚ) = .ok (100/21) ∧
    (chainDict ℚ).prob (testSample ℚ) ≠
      .ok (1 / (7/10 * (6/10) * (5/10) * (4/10))) := by
  have hf : (chainDict ℚ).probFactors (testSample ℚ) =
      .ok [uniformProb ⟨0, 1⟩ (7/10), uniformProb ⟨0, 7/10⟩ (6/10),
           uniformProb ⟨0, 6/10⟩ (5/10), uniformProb ⟨0, 5/10⟩ (4/10)] := rfl
  have h0 : (chainDict ℚ).prob (testSample ℚ) = .ok (100/21) := by
    rw [PriorDict.prob, hf, Except.map]
    norm_num [uniformProb, List.prod_cons]
  refine ⟨h0, ?_⟩
  rw [h0]
  intro h
  have h1 : (100 : ℚ)/21 = 1 / (7/10 * (6/10) * (5/10) * (4/10)) :=
    Except.ok.inj h
  norm_num at h1

/-- Claim C4, amended: on the 4-variable chained-uniform collection at
`test_sample = {var_0:0.7, var_1:0.6, var_2:0.5, var_3:0.4}`,
`prob(test_sample) = 1/(0.7*0.6*0.5)` (the product of the reciprocal realized
maxima under this chain's condition functions) and
`ln_prob(test_sample) = log` of that value. -/
theorem prob_lnProb_chain_amended :
    (chainDict ℝ).prob (testSample ℝ) = .ok (1 / (7/10 * (6/10) * (5/10))) ∧
    (chainDict ℝ).lnProb (testSample ℝ) =
      .ok (Real.log (1 / (7/10 * (6/10) * (5/10)))) := by
  have hf : (chainDict ℝ).probFactors (testSample ℝ) =
      .ok [uniformProb ⟨0, 1⟩ (7/10), uniformProb ⟨0, 7/10⟩ (6/10),
           uniformProb ⟨0, 6/10⟩ (5/10), uniformProb ⟨0, 5/10⟩ (4/10)] := rfl
  have h1 : uniformProb (⟨0, 1⟩ : Params ℝ) (7/10) = 1 := by
    rw [uniformProb]; norm_num
  have h2 : uniformProb (⟨0, 7/10⟩ : Params ℝ) (6/10) = 10/7 := by
    rw [uniformProb]; norm_num
  have h3 : uniformProb (⟨0, 6/10⟩ : Params ℝ) (5/10) = 5/3 := by
    rw [uniformProb]; norm_num
  have h4 : uniformProb (⟨0, 5/10⟩ : Params ℝ) (4/10) = 2 := by
    rw [uniformProb]; norm_num
  constructor
  · rw [PriorDict.prob, hf, Except.map, h1, h2, h3, h4]
    norm_num [List.prod_cons]
  · rw [PriorDict.lnProb, hf, Except.map, h1, h2, h3, h4]
    simp only [List.map_cons, List.map_nil, List.sum_cons, List.sum_nil,
      Real.log_one, add_zero, zero_add]
    congr 1
    rw [← Real.log_mul (by norm_num) (by norm_num),
      ← Real.log_mul (by norm_num) (by norm_num)]
    congr 1
    norm_num

omit [LinearOrderedField α] in
/-- Claim C7: calling `update_conditions` with keyword-argument names that do
not match the condition function's declared required-variable set (in the
exact-match sense) and are not empty raises `IllegalRequiredVariables`. -/
theorem updateConditions_illegal_required_variables
    (p : ConditionalBasePrior α) (kwargs : List (String × α))
    (hne : kwargs ≠ [])
    (hmm : namesMatch (kwargs.map Prod.fst) p.requiredVariables = false) :
    p.updateConditions kwargs = .error .illegalRequiredVariables := by
  unfold ConditionalBasePrior.updateConditions
  rw [hmm]
  simp [List.isEmpty_iff, hne]

/-- Witness for C7: the test prior (required variables `test_variable_1`,
`test_variable_2`) rejects `update_conditions(test_parameter_1=0)` with
`IllegalRequiredVariables`. -/
theorem updateConditions_illegal_required_variables_witness :
    (testPrior ℚ).updateConditions [("test_parameter_1", 0)] =
      .error .illegalRequiredVariables :=
  updateConditions_illegal_required_variables (testPrior ℚ)
    [("test_parameter_1", 0)] (by decide) (by decide)

/-- Claim C8, counterexample: `update_conditions(test_parameter_1=0)` on the
test prior supplies none of the declared required variables
(`test_variable_1`, `test_variable_2`), yet it is not a silent no-op: it
fails with `IllegalRequiredVariables` (an `Except.error`, never equal to any
`Except.ok` outcome). -/
theorem updateConditions_unrelated_key_not_noop :
    ("test_parameter_1" ∉ (testPrior ℚ).requiredVariables) ∧
    (testPrior ℚ).updateConditions [("test_parameter_1", 0)] =
      .error .illegalRequiredVariables := by
  exact ⟨by decide, rfl⟩

/-- Claim C8, amended: every successful `ln_prob(x, **kwargs)` call invokes
`update_conditions` exactly twice — first with the passed kwargs, then a
second time with no arguments — and an `update_conditions` call with no
keyword arguments at all, on a prior with a nonempty declared
required-variable set, is a silent no-op: the condition function is not
invoked and the parameters are unchanged. -/
theorem lnProb_update_conditions_calls (lnFn : α → α)
    (p q : ConditionalBasePrior α) (x : α) (kwargs : List (String × α))
    (r : α) (p' : ConditionalBasePrior α) (tr : List (List (String × α)))
    (h : ConditionalBasePrior.lnProbTraceWith lnFn p x kwargs = .ok (r, p', tr))
    (hq : q.requiredVariables ≠ []) :
    tr = [kwargs, []] ∧ q.updateConditions [] = .ok (q, false) := by
  refine ⟨?_, updateConditions_nil_noop q hq⟩
  cases h1 : p.updateConditions kwargs with
  | error e => simp [ConditionalBasePrior.lnProbTraceWith, h1] at h
  | ok pr1 =>
    obtain ⟨p1, b1⟩ := pr1
    cases h2 : p1.updateConditions [] with
    | error e => simp [ConditionalBasePrior.lnProbTraceWith, h1, h2] at h
    | ok pr2 =>
      obtain ⟨p2, b2⟩ := pr2
      simp only [ConditionalBasePrior.lnProbTraceWith, h1, h2] at h
      have h3 := congrArg (fun y => y.2.2)
        (Except.ok.inj h :
          ((lnFn (uniformProb ⟨p2.minimum, p2.maximum⟩ x), p2, [kwargs, []]) :
            α × ConditionalBasePrior α × List (List (String × α))) = (r, p', tr))
      exact h3.symm

/-- Witness for C8's amended theorem: a concrete conditional prior with
required variables `test_variable_1`, `test_variable_2` and identity condition
function, evaluated at `x = 1` with the full kwarg set. -/
theorem lnProb_update_conditions_calls_witness :
    ([[("test_variable_1", (0:ℚ)), ("test_variable_2", 1)], []] =
        [[("test_variable_1", (0:ℚ)), ("test_variable_2", 1)], []]) ∧
      (ConditionalBasePrior.mk' (0:ℚ) 5 ["test_variable_1", "test_variable_2"]
          (fun ref _ => ref)).updateConditions [] =
        .ok (ConditionalBasePrior.mk' (0:ℚ) 5
          ["test_variable_1", "test_variable_2"] (fun ref _ => ref), false) :=
  lnProb_update_conditions_calls id
    (ConditionalBasePrior.mk' 0 5 ["test_variable_1", "test_variable_2"]
      (fun ref _ => ref))
    (ConditionalBasePrior.mk' 0 5 ["test_variable_1", "test_variable_2"]
      (fun ref _ => ref))
    1 [("test_variable_1", 0), ("test_variable_2", 1)]
    (uniformProb ⟨0, 5⟩ 1)
    (ConditionalBasePrior.mk' 0 5 ["test_variable_1", "test_variable_2"]
      (fun ref _ => ref))
    [[("test_variable_1", 0), ("test_variable_2", 1)], []]
    rfl (by decide)

omit [LinearOrderedField α] in
/-- Claim C9: after any sequence of mutations (arbitrary `update_conditions`
calls or direct assignments to `minimum`/`maximum`),
`reset_to_reference_parameters()` restores `minimum` and `maximum` — every
attribute named in the reference snapshot — to exactly the values captured at
construction. -/
theorem reset_restores_construction_values (minv maxv : α) (req : List String)
    (cf : Params α → List (String × α) → Params α)
    (ms : List (PriorMutation α)) :
    ((ms.foldl applyMutation
        (ConditionalBasePrior.mk' minv maxv req cf)).resetToReferenceParameters).minimum
        = minv ∧
    ((ms.foldl applyMutation
        (ConditionalBasePrior.mk' minv maxv req cf)).resetToReferenceParameters).maximum
        = maxv := by
  rw [ConditionalBasePrior.resetToReferenceParameters]
  rw [foldl_applyMutation_referenceParams]
  exact ⟨rfl, rfl⟩

/-- Witness for C9: mutating the test prior's bounds directly and through
`update_conditions`, then resetting, restores the construction values `0`
and `5`. -/
theorem reset_restores_construction_values_witness :
    (([PriorMutation.setMinimum 10, PriorMutation.setMaximum 20,
        PriorMutation.updateConditions
          [("test_variable_1", 0), ("test_variable_2", 1)]].foldl applyMutation
        (ConditionalBasePrior.mk' (0:ℚ) 5
          ["test_variable_1", "test_variable_2"]
          fun ref _ => ⟨ref.minimum + 1, ref.maximum + 1⟩)).resetToReferenceParameters).minimum
        = 0 ∧
    (([PriorMutation.setMinimum 10, PriorMutation.setMaximum 20,
        PriorMutation.updateConditions
          [("test_variable_1", 0), ("test_variable_2", 1)]].foldl applyMutation
        (ConditionalBasePrior.mk' (0:ℚ) 5
          ["test_variable_1", "test_variable_2"]
          fun ref _ => ⟨ref.minimum + 1, ref.maximum + 1⟩)).resetToReferenceParameters).maximum
        = 5 :=
  reset_restores_construction_values 0 5 ["test_variable_1", "test_variable_2"]
    (fun ref _ => ⟨ref.minimum + 1, ref.maximum + 1⟩)
    [PriorMutation.setMinimum 10, PriorMutation.setMaximum 20,
      PriorMutation.updateConditions
        [("test_variable_1", 0), ("test_variable_2", 1)]]

/-! ## Dependency resolution is a topological sort (claim C1) -/

/-- Invariant of the dependency-resolution loop: starting from a resolved
prefix in which every already-resolved conditional key has its required
variables strictly earlier, a successful run produces an order containing
every conditional key after all of its required variables.  `conds` is the
full set of conditional (key, required) pairs the loop was started with. -/
lemma resolveLoop_topological (conds : List (String × List String)) :
    ∀ (fuel : ℕ) (resolved : List String)
      (remaining : List (String × List String)) (order : List String),
      resolveLoop fuel resolved remaining = .ok order →
      (resolved ++ remaining.map Prod.fst).Nodup →
      (∀ kr ∈ remaining, kr ∈ conds) →
      (∀ kr ∈ conds, kr.1 ∈ resolved ∨ kr ∈ remaining) →
      (∀ kr ∈ conds, kr.1 ∈ resolved →
        ∀ v ∈ kr.2, v ∈ resolved ∧ resolved.indexOf v < resolved.indexOf kr.1) →
      order.Nodup ∧
        ∀ kr ∈ conds, kr.1 ∈ order ∧
          ∀ v ∈ kr.2, v ∈ order ∧ order.indexOf v < order.indexOf kr.1 := by
  intro fuel
  induction fuel with
  | zero =>
    intro resolved remaining order h hnd hsub hkeys htopo
    cases remaining with
    | nil =>
      obtain rfl : resolved = order := Except.ok.inj h
      refine ⟨by simpa using hnd, fun kr hkr => ?_⟩
      have hres := (hkeys kr hkr).resolve_right (by simp)
      exact ⟨hres, fun v hv => htopo kr hkr hres v hv⟩
    | cons hd rest => exact absurd h (by simp [resolveLoop])
  | succ n ih =>
    intro resolved remaining order h hnd hsub hkeys htopo
    cases remaining with
    | nil =>
      obtain rfl : resolved = order := Except.ok.inj h
      refine ⟨by simpa using hnd, fun kr hkr => ?_⟩
      have hres := (hkeys kr hkr).resolve_right (by simp)
      exact ⟨hres, fun v hv => htopo kr hkr hres v hv⟩
    | cons hd rest =>
      simp only [resolveLoop] at h
      set R : List (String × List String) := hd :: rest with hR
      set p : String × List String → Bool :=
        fun kr => kr.2.all fun v => resolved.contains v with hp
      by_cases hemp : (R.filter p).isEmpty
      · rw [if_pos hemp] at h
        exact absurd h (by simp)
      · rw [if_neg hemp] at h
        set A : List String := (R.filter p).map Prod.fst with hA
        have hpermAB :
            List.Perm ((R.filter p).map Prod.fst ++
                (R.filter fun kr => !p kr).map Prod.fst) (R.map Prod.fst) := by
          rw [← List.map_append]
          exact (List.filter_append_perm p R).map Prod.fst
        have hpermfull :
            List.Perm
              (resolved ++ ((R.filter p).map Prod.fst ++
                (R.filter fun kr => !p kr).map Prod.fst))
              (resolved ++ R.map Prod.fst) := hpermAB.append_left resolved
        have hnd' :
            ((resolved ++ A) ++ (R.filter fun kr => !p kr).map Prod.fst).Nodup := by
          rw [List.append_assoc]
          exact hpermfull.nodup_iff.mpr hnd
        have hdisj := List.disjoint_of_nodup_append hnd
        have hndR : (R.map Prod.fst).Nodup := hnd.of_append_right
        have hsub' : ∀ kr ∈ R.filter fun kr => !p kr, kr ∈ conds :=
          fun kr hkr => hsub kr (List.mem_of_mem_filter hkr)
        have hkeys' : ∀ kr ∈ conds,
            kr.1 ∈ resolved ++ A ∨ kr ∈ R.filter fun kr => !p kr := by
          intro kr hkr
          rcases hkeys kr hkr with hres | hrem
          · exact Or.inl (List.mem_append_left _ hres)
          · by_cases hpk : p kr
            · refine Or.inl (List.mem_append_right _ ?_)
              exact List.mem_map_of_mem Prod.fst (List.mem_filter.mpr ⟨hrem, hpk⟩)
            · exact Or.inr (List.mem_filter.mpr ⟨hrem, by simp [hpk]⟩)
        have htopo' : ∀ kr ∈ conds, kr.1 ∈ resolved ++ A →
            ∀ v ∈ kr.2, v ∈ resolved ++ A ∧
              (resolved ++ A).indexOf v < (resolved ++ A).indexOf kr.1 := by
          intro kr hkr hmem v hv
          rcases List.mem_append.mp hmem with hres | hready
          · obtain ⟨hvmem, hlt⟩ := htopo kr hkr hres v hv
            refine ⟨List.mem_append_left _ hvmem, ?_⟩
            rw [List.indexOf_append_of_mem hvmem, List.indexOf_append_of_mem hres]
            exact hlt
          · obtain ⟨kr', hkr'f, hfst⟩ := List.mem_map.mp hready
            have hkr'R : kr' ∈ R := List.mem_of_mem_filter hkr'f
            have hpkr' : p kr' = true := (List.mem_filter.mp hkr'f).2
            have hkey_inR : kr.1 ∈ R.map Prod.fst :=
              hfst ▸ List.mem_map_of_mem Prod.fst hkr'R
            have hnotres : kr.1 ∉ resolved := fun hc => hdisj hc hkey_inR
            have hkrR : kr ∈ R := (hkeys kr hkr).resolve_left hnotres
            have hkr_eq : kr = kr' :=
              List.inj_on_of_nodup_map hndR hkrR hkr'R hfst.symm
            have hvres : v ∈ resolved := by
              have hall := List.all_eq_true.mp hpkr' v (hkr_eq ▸ hv)
              simpa using hall
            refine ⟨List.mem_append_left _ hvres, ?_⟩
            rw [List.indexOf_append_of_mem hvres,
              List.indexOf_append_of_not_mem hnotres]
            have h1 : resolved.indexOf v < resolved.length :=
              List.indexOf_lt_length.mpr hvres
            omega
        exact ih (resolved ++ A) (R.filter fun kr => !p kr) order h hnd' hsub'
          hkeys' htopo'

omit [LinearOrderedField α] in
/-- The unconditional keys and the conditional keys partition the
collection's keys. -/
lemma uncond_condPairs_perm (d : PriorDict α) :
    List.Perm (d.unconditionalKeys ++ d.conditionalPairs.map Prod.fst)
      (d.entries.map Prod.fst) := by
  obtain ⟨es⟩ := d
  simp only [PriorDict.unconditionalKeys, PriorDict.conditionalPairs]
  induction es with
  | nil => simp
  | cons ke rest ih =>
    obtain ⟨k, e⟩ := ke
    cases e with
    | unconditional prm =>
      simp only [List.filterMap_cons, List.map_cons]
      exact ih.cons k
    | conditional ref req f =>
      simp only [List.filterMap_cons, List.map_cons]
      exact List.perm_middle.trans (ih.cons k)

omit [LinearOrderedField α] in
/-- Claim C1: for every collection whose dependency resolution succeeds
(equivalently, whose dependency graph is acyclic with all required variables
present), and regardless of the insertion order of the entries (construction
and item-by-item insertion both produce an entry list, over which this
theorem quantifies), `sorted_keys` is a valid topological order: every
conditional variable's required variables appear strictly earlier in
`sorted_keys` than the variable itself. -/
theorem sortedKeys_topological (d : PriorDict α) (order : List String)
    (k v : String) (e : PriorEntry α)
    (hnodup : (d.entries.map Prod.fst).Nodup)
    (hres : d.sortedKeys = .ok order)
    (hk : (k, e) ∈ d.entries) (hv : v ∈ e.requiredVariables) :
    v ∈ order ∧ k ∈ order ∧ order.indexOf v < order.indexOf k := by
  cases e with
  | unconditional prm => simp [PriorEntry.requiredVariables] at hv
  | conditional ref req f =>
    have hkr : (k, req) ∈ d.conditionalPairs := by
      rw [PriorDict.conditionalPairs]
      exact List.mem_filterMap.mpr ⟨(k, .conditional ref req f), hk, rfl⟩
    have hnd0 : (d.unconditionalKeys ++ d.conditionalPairs.map Prod.fst).Nodup :=
      (uncond_condPairs_perm d).nodup_iff.mpr hnodup
    have hdisj := List.disjoint_of_nodup_append hnd0
    rw [PriorDict.sortedKeys] at hres
    obtain ⟨-, hmain⟩ := resolveLoop_topological d.conditionalPairs
      d.conditionalPairs.length d.unconditionalKeys d.conditionalPairs order
      hres hnd0 (fun kr h => h) (fun kr h => Or.inr h)
      (fun kr hkrc hkres =>
        False.elim (hdisj hkres (List.mem_map_of_mem Prod.fst hkrc)))
    obtain ⟨hkord, hrest⟩ := hmain (k, req) hkr
    obtain ⟨hvord, hlt⟩ := hrest v
      (by simpa [PriorEntry.requiredVariables] using hv)
    exact ⟨hvord, hkord, hlt⟩

/-- Witness for C1: on the test chain, `var_3` (required variables `var_1`,
`var_2`) appears after `var_1` in the resolved order
`[var_0, var_1, var_2, var_3]`. -/
theorem sortedKeys_topological_witness :
    "var_1" ∈ ["var_0", "var_1", "var_2", "var_3"] ∧
    "var_3" ∈ ["var_0", "var_1", "var_2", "var_3"] ∧
    List.indexOf "var_1" ["var_0", "var_1", "var_2", "var_3"] <
      List.indexOf "var_3" ["var_0", "var_1", "var_2", "var_3"] :=
  sortedKeys_topological (chainDict ℚ) ["var_0", "var_1", "var_2", "var_3"]
    "var_3" "var_1"
    (.conditional ⟨0, 1⟩ ["var_1", "var_2"]
      fun ref vals => ⟨ref.minimum, vals.getD 1 0⟩)
    (by decide) (by decide) (List.mem_cons_self _ _) (by decide)

/-! ## Missing dependencies fail with IllegalConditions (claim C6) -/

/-- If some remaining conditional key requires a variable that is neither
resolved nor a remaining key, the resolution loop fails with
`IllegalConditions`. -/
lemma resolveLoop_error_of_missing (v : String) :
    ∀ (fuel : ℕ) (resolved : List String)
      (remaining : List (String × List String)) (k : String) (req : List String),
      (k, req) ∈ remaining → v ∈ req → v ∉ resolved →
      v ∉ remaining.map Prod.fst →
      resolveLoop fuel resolved remaining = .error .illegalConditions := by
  intro fuel
  induction fuel with
  | zero =>
    intro resolved remaining k req hmem hvreq hvres hvrem
    cases remaining with
    | nil => simp at hmem
    | cons hd rest => rfl
  | succ n ih =>
    intro resolved remaining k req hmem hvreq hvres hvrem
    cases remaining with
    | nil => simp at hmem
    | cons hd rest =>
      simp only [resolveLoop]
      set R : List (String × List String) := hd :: rest with hR
      set p : String × List String → Bool :=
        fun kr => kr.2.all fun u => resolved.contains u with hp
      by_cases hemp : (R.filter p).isEmpty
      · rw [if_pos hemp]
      · rw [if_neg hemp]
        have hcontains : resolved.contains v = false := by
          simpa using hvres
        have hpkr : p (k, req) = false := by
          rw [hp]
          refine List.all_eq_false.mpr ⟨v, hvreq, ?_⟩
          simpa using hvres
        have hnotready : ∀ u, u ∈ (R.filter p).map Prod.fst →
            u ∈ R.map Prod.fst := by
          intro u hu
          obtain ⟨kr, hkrf, hfst⟩ := List.mem_map.mp hu
          exact hfst ▸ List.mem_map_of_mem Prod.fst (List.mem_of_mem_filter hkrf)
        refine ih (resolved ++ (R.filter p).map Prod.fst)
          (R.filter fun kr => !p kr) k req ?_ hvreq ?_ ?_
        · exact List.mem_filter.mpr ⟨hmem, by simp [hpkr]⟩
        · intro hc
          rcases List.mem_append.mp hc with h1 | h2
          · exact hvres h1
          · exact hvrem (hnotready v h2)
        · intro hc
          obtain ⟨kr, hkrf, hfst⟩ := List.mem_map.mp hc
          exact hvrem
            (hfst ▸ List.mem_map_of_mem Prod.fst (List.mem_of_mem_filter hkrf))

omit [LinearOrderedField α] in
/-- If some entry requires a variable absent from the collection, dependency
resolution fails with `IllegalConditions`. -/
lemma sortedKeys_error_of_missing (d : PriorDict α) (k v : String)
    (e : PriorEntry α) (hk : (k, e) ∈ d.entries) (hv : v ∈ e.requiredVariables)
    (hvd : v ∉ d.entries.map Prod.fst) :
    d.sortedKeys = .error .illegalConditions := by
  cases e with
  | unconditional prm => simp [PriorEntry.requiredVariables] at hv
  | conditional ref req f =>
    have hkr : (k, req) ∈ d.conditionalPairs :=
      List.mem_filterMap.mpr ⟨(k, .conditional ref req f), hk, rfl⟩
    have hvmem : v ∉ d.unconditionalKeys ++ d.conditionalPairs.map Prod.fst :=
      fun hc => hvd ((uncond_condPairs_perm d).mem_iff.mp hc)
    rw [PriorDict.sortedKeys]
    exact resolveLoop_error_of_missing v _ _ _ k req hkr
      (by simpa [PriorEntry.requiredVariables] using hv)
      (fun hc => hvmem (List.mem_append_left _ hc))
      (fun hc => hvmem (List.mem_append_right _ hc))

omit [LinearOrderedField α] in
/-- Deleting a key keeps every entry with a different key. -/
lemma mem_delitem_of_ne (d : PriorDict α) (k v : String) (e : PriorEntry α)
    (hk : (k, e) ∈ d.entries) (hkv : k ≠ v) :
    (k, e) ∈ (d.delitem v).entries :=
  List.mem_filter.mpr ⟨hk, by simp [hkv]⟩

omit [LinearOrderedField α] in
/-- A deleted key is absent from the collection's keys. -/
lemma not_mem_delitem_keys (d : PriorDict α) (v : String) :
    v ∉ (d.delitem v).entries.map Prod.fst := by
  intro hc
  obtain ⟨kr, hkrf, hfst⟩ := List.mem_map.mp hc
  have := (List.mem_filter.mp hkrf).2
  rw [hfst] at this
  simp at this

/-- Claim C6: every collection operation that is missing a required upstream
dependency fails with `IllegalConditions`: after deleting a key `v` that
another entry `k` requires, `prob`, `ln_prob` and `rescale` all fail with
`IllegalConditions` (for any arguments), and `sample_subset` over a key
subset containing `k` but excluding its required variable `v` likewise fails
with `IllegalConditions`. -/
theorem missing_dependency_illegal_conditions (d : PriorDict ℝ) (k v : String)
    (e : PriorEntry ℝ) (sample : List (String × ℝ)) (keys : List String)
    (theta : List ℝ) (subKeys : List String) (draws : String → ℝ)
    (hk : (k, e) ∈ d.entries) (hv : v ∈ e.requiredVariables) (hkv : k ≠ v) :
    (d.delitem v).prob sample = .error .illegalConditions ∧
    (d.delitem v).lnProb sample = .error .illegalConditions ∧
    (d.delitem v).rescale keys theta = .error .illegalConditions ∧
    (k ∈ subKeys → v ∉ subKeys →
      d.sampleSubset subKeys draws = .error .illegalConditions) := by
  have hdel : (d.delitem v).sortedKeys = .error .illegalConditions :=
    sortedKeys_error_of_missing (d.delitem v) k v e
      (mem_delitem_of_ne d k v e hk hkv) hv (not_mem_delitem_keys d v)
  refine ⟨?_, ?_, ?_, ?_⟩
  · rw [PriorDict.prob, PriorDict.probFactors, hdel]; rfl
  · rw [PriorDict.lnProb, PriorDict.probFactors, hdel]; rfl
  · rw [PriorDict.rescale, hdel]
  · intro hksub hvsub
    have hsubmem : (k, e) ∈ (d.entries.filter fun ke => subKeys.contains ke.1) :=
      List.mem_filter.mpr ⟨hk, by simpa using hksub⟩
    have hvnot : v ∉ (d.entries.filter
        fun ke => subKeys.contains ke.1).map Prod.fst := by
      intro hc
      obtain ⟨kr, hkrf, hfst⟩ := List.mem_map.mp hc
      have := (List.mem_filter.mp hkrf).2
      rw [hfst] at this
      exact hvsub (by simpa using this)
    have hsub : (⟨d.entries.filter fun ke => subKeys.contains ke.1⟩ :
        PriorDict ℝ).sortedKeys = .error .illegalConditions :=
      sortedKeys_error_of_missing _ k v e hsubmem hv hvnot
    rw [PriorDict.sampleSubset, hsub]

/-- Witness for C6: deleting `var_0` from the test chain breaks `var_1`
(which requires `var_0`), so `prob`, `ln_prob` and `rescale` fail, and
`sample_subset(["var_1"])` fails because the subset omits `var_0`. -/
theorem missing_dependency_illegal_conditions_witness :
    ((chainDict ℝ).delitem "var_0").prob [] = .error .illegalConditions ∧
    ((chainDict ℝ).delitem "var_0").lnProb [] = .error .illegalConditions ∧
    ((chainDict ℝ).delitem "var_0").rescale [] [] = .error .illegalConditions ∧
    ("var_1" ∈ ["var_1"] → "var_0" ∉ ["var_1"] →
      (chainDict ℝ).sampleSubset ["var_1"] (fun _ => 0) =
        .error .illegalConditions) :=
  missing_dependency_illegal_conditions (chainDict ℝ) "var_1" "var_0"
    (.conditional ⟨0, 1⟩ ["var_0"] fun ref vals => ⟨ref.minimum, vals.getD 0 0⟩)
    [] [] [] ["var_1"] (fun _ => 0)
    (List.mem_cons_of_mem _ (List.mem_cons_of_mem _
      (List.mem_cons_of_mem _ (List.mem_cons_self _ _))))
    (by decide) (by decide)

/-! ## The collection-level cdf/rescale round trip (claim C2) -/

/-- `sampleParamsOk`'s core: replay the sampling loop, checking that every
realized parameter set is nondegenerate (`minimum < maximum`).  The
per-variable round trip `rescale ∘ cdf = id` holds exactly on nondegenerate
parameters (spec §3 invariant `minimum ≤ maximum` with positive density). -/
def paramsOkGo (entries : List (String × PriorEntry α)) (draws : String → α) :
    List String → List (String × α) → Bool
  | [], _ => true
  | k :: ks, env =>
    match entries.lookup k with
    | none => false
    | some e =>
      match e.paramsAt env with
      | .error _ => false
      | .ok p =>
        decide (p.minimum < p.maximum) &&
          paramsOkGo entries draws ks (env ++ [(k, uniformRescale p (draws k))])

/-- Every parameter set realized while drawing `sample draws` is
nondegenerate. -/
def PriorDict.sampleParamsOk (d : PriorDict α) (draws : String → α) : Bool :=
  match d.sortedKeys with
  | .error _ => false
  | .ok order => paramsOkGo d.entries draws order []

omit [LinearOrderedField α] in
/-- A successful association-list lookup is unchanged by extending the list
on the right. -/
lemma lookup_append_left {β : Type} (l1 l2 : List (String × β)) (k : String)
    (v : β) (h : List.lookup k l1 = some v) :
    List.lookup k (l1 ++ l2) = some v := by
  induction l1 with
  | nil => simp [List.lookup] at h
  | cons x xs ih =>
    obtain ⟨a, b⟩ := x
    rw [List.cons_append]
    simp only [List.lookup] at h ⊢
    cases hx : (k == a) with
    | true => rw [hx] at h; exact h
    | false => rw [hx] at h; exact ih h

omit [LinearOrderedField α] in
/-- Lookup of an absent key skips an association-list prefix. -/
lemma lookup_append_right {β : Type} (l1 l2 : List (String × β)) (k : String)
    (h : k ∉ l1.map Prod.fst) :
    List.lookup k (l1 ++ l2) = List.lookup k l2 := by
  induction l1 with
  | nil => rfl
  | cons x xs ih =>
    obtain ⟨a, b⟩ := x
    have hka : (k == a) = false := by
      simp only [List.map_cons, List.mem_cons] at h
      simpa using fun hc => h (Or.inl hc)
    rw [List.cons_append]
    simp only [List.lookup, hka]
    exact ih fun hc => h (List.mem_cons_of_mem _ hc)

omit [LinearOrderedField α] in
/-- Lookup skips a cons with a different key. -/
lemma lookup_cons_ne {β : Type} (a k : String) (b : β) (l : List (String × β))
    (h : k ≠ a) : List.lookup k ((a, b) :: l) = List.lookup k l := by
  have hka : (k == a) = false := by simpa using h
  simp only [List.lookup, hka]

omit [LinearOrderedField α] in
/-- Resolving an entry's parameters from an environment keeps succeeding,
with the same result, after the environment is extended on the right. -/
lemma paramsAt_append (e : PriorEntry α) (env rest : List (String × α))
    (p : Params α) (h : e.paramsAt env = .ok p) :
    e.paramsAt (env ++ rest) = .ok p := by
  cases e with
  | unconditional prm => exact h
  | conditional ref req f =>
    simp only [PriorEntry.paramsAt] at h ⊢
    cases hm : req.mapM (fun v => List.lookup v env) with
    | none => rw [hm] at h; exact absurd h (by simp)
    | some vals =>
      rw [hm] at h
      have hm' : req.mapM (fun v => List.lookup v (env ++ rest)) = some vals := by
        clear h
        induction req generalizing vals with
        | nil => simpa using hm
        | cons r rs ih =>
          rw [List.mapM_cons] at hm ⊢
          cases hr : List.lookup r env with
          | none => rw [hr] at hm; exact absurd hm (by simp)
          | some x =>
            rw [hr] at hm
            cases hrs : rs.mapM (fun v => List.lookup v env) with
            | none => rw [hrs] at hm; exact absurd hm (by simp)
            | some xs =>
              rw [hrs] at hm
              rw [lookup_append_left env rest r x hr, ih xs hrs]
              simpa using hm
      rw [hm']
      exact h

/-- A successful sampling run only appends to the environment, one entry per
key of the processed order. -/
lemma sampleGo_extends (entries : List (String × PriorEntry α))
    (draws : String → α) :
    ∀ (order : List String) (env s : List (String × α)),
      sampleGo entries draws order env = .ok s →
      ∃ tail, s = env ++ tail ∧ tail.map Prod.fst = order := by
  intro order
  induction order with
  | nil =>
    intro env s h
    obtain rfl : env = s := Except.ok.inj h
    exact ⟨[], by simp⟩
  | cons k ks ih =>
    intro env s h
    simp only [sampleGo] at h
    split at h
    · exact absurd h (by simp)
    · split at h
      · exact absurd h (by simp)
      · rename_i p hp
        obtain ⟨tail, hs, hmap⟩ := ih _ s h
        exact ⟨(k, uniformRescale p (draws k)) :: tail,
          by rw [hs, List.append_assoc]; rfl,
          by rw [List.map_cons, hmap]⟩

omit [LinearOrderedField α] in
/-- Reading the value column of an association list at a key's position in
the key column is exactly `lookup`. -/
lemma get_map_snd_indexOf {β : Type} (cs : List (String × β)) (k : String)
    (h : k ∈ cs.map Prod.fst) :
    (cs.map Prod.snd).get? ((cs.map Prod.fst).indexOf k) = List.lookup k cs := by
  induction cs with
  | nil => simp at h
  | cons x xs ih =>
    obtain ⟨a, b⟩ := x
    by_cases hk : k = a
    · subst hk
      rw [List.map_cons, List.map_cons, List.indexOf_cons_self]
      simp [List.lookup]
    · have hka : (k == a) = false := by simpa using hk
      rw [List.map_cons, List.map_cons,
        List.indexOf_cons_ne _ (fun hc => hk hc.symm)]
      simp only [List.get?_cons_succ, List.lookup, hka]
      exact ih (by
        simp only [List.map_cons, List.mem_cons] at h
        exact h.resolve_left hk)

omit [LinearOrderedField α] in
/-- Pointwise-equal `Option`-valued functions give equal `mapM` runs. -/
lemma mapM_option_congr {β γ : Type} (l : List β) (f g : β → Option γ)
    (h : ∀ x ∈ l, f x = g x) : l.mapM f = l.mapM g := by
  induction l with
  | nil => rfl
  | cons x xs ih =>
    rw [List.mapM_cons, List.mapM_cons, h x (List.mem_cons_self x xs),
      ih (fun y hy => h y (List.mem_cons_of_mem x hy))]

omit [LinearOrderedField α] in
/-- Looking every key of a duplicate-free association list back up returns
the value column. -/
lemma mapM_lookup_self {β : Type} (s : List (String × β))
    (hnd : (s.map Prod.fst).Nodup) :
    (s.map Prod.fst).mapM (fun k => List.lookup k s) = some (s.map Prod.snd) := by
  induction s with
  | nil => rfl
  | cons x xs ih =>
    obtain ⟨a, b⟩ := x
    rw [List.map_cons, List.mapM_cons]
    have hhead : List.lookup a ((a, b) :: xs) = some b := by
      simp [List.lookup]
    have hanot : a ∉ xs.map Prod.fst := (List.nodup_cons.mp hnd).1
    have htail : (xs.map Prod.fst).mapM (fun k => List.lookup k ((a, b) :: xs)) =
        (xs.map Prod.fst).mapM (fun k => List.lookup k xs) :=
      mapM_option_congr _ _ _ fun k hk =>
        lookup_cons_ne a k b xs fun he => hanot (he ▸ hk)
    rw [hhead, htail, ih (List.Nodup.of_cons hnd)]
    rfl

/-- The per-variable round trip: on nondegenerate parameters, the cdf of a
rescaled `[0,1]` draw is that draw. -/
lemma uniform_cdf_rescale (p : Params α) (u : α) (hlt : p.minimum < p.maximum)
    (h0 : 0 ≤ u) (h1 : u ≤ 1) :
    uniformCdf p (uniformRescale p u) = u := by
  rw [uniformCdf, uniformRescale]
  have hne : p.maximum - p.minimum ≠ 0 := sub_ne_zero.mpr (ne_of_gt hlt)
  have hq : (p.minimum + u * (p.maximum - p.minimum) - p.minimum) /
      (p.maximum - p.minimum) = u := by
    field_simp
  rw [hq, max_eq_left h0, min_eq_left h1]

/-- Characterisation of a successful `cdfGo` run over a duplicate-free
order: the result pairs each key of the order with the cdf of the sample's
value under the parameters resolved from the sample. -/
lemma cdfGo_spec (entries : List (String × PriorEntry α))
    (s : List (String × α)) :
    ∀ (order : List String) (cs : List (String × α)),
      cdfGo entries s order = .ok cs → order.Nodup →
      cs.map Prod.fst = order ∧
      ∀ k ∈ order, ∃ (e : PriorEntry α) (p : Params α) (x : α),
        entries.lookup k = some e ∧ PriorEntry.paramsAt e s = .ok p ∧
        List.lookup k s = some x ∧ List.lookup k cs = some (uniformCdf p x) := by
  intro order
  induction order with
  | nil =>
    intro cs h _
    obtain rfl : ([] : List (String × α)) = cs := Except.ok.inj h
    exact ⟨rfl, by simp⟩
  | cons k ks ih =>
    intro cs h hnd
    cases he : entries.lookup k with
    | none => simp [cdfGo, he] at h
    | some e =>
      cases hp : e.paramsAt s with
      | error err => simp [cdfGo, he, hp] at h
      | ok p =>
        cases hx : List.lookup k s with
        | none => simp [cdfGo, he, hp, hx] at h
        | some x =>
          cases hrec : cdfGo entries s ks with
          | error err => simp [cdfGo, he, hp, hx, hrec] at h
          | ok rest =>
            have h' : Except.ok ((k, uniformCdf p x) :: rest) =
                (.ok cs : Except PriorError (List (String × α))) := by
              rw [← h]; simp [cdfGo, he, hp, hx, hrec]
            obtain rfl : ((k, uniformCdf p x) :: rest) = cs := Except.ok.inj h'
            obtain ⟨hmap, hpt⟩ := ih rest hrec (List.Nodup.of_cons hnd)
            have hknot : k ∉ ks := (List.nodup_cons.mp hnd).1
            refine ⟨by rw [List.map_cons, hmap], ?_⟩
            intro k' hk'
            rcases List.mem_cons.mp hk' with rfl | hk'
            · exact ⟨e, p, x, he, hp, hx, by simp [List.lookup]⟩
            · obtain ⟨e', p', x', h1, h2, h3, h4⟩ := hpt k' hk'
              refine ⟨e', p', x', h1, h2, h3, ?_⟩
              rw [lookup_cons_ne k k' (uniformCdf p x) rest
                (fun hc => hknot (hc ▸ hk'))]
              exact h4

/-- The heart of the round-trip law: replaying a successful, nondegenerate
sampling run through `rescaleGo`, feeding each key the cdf of its own sampled
value, reproduces the sampled environment exactly. -/
lemma rescaleGo_inverts_sampleGo (entries : List (String × PriorEntry α))
    (draws : String → α) (keys : List String) (theta : List α)
    (s : List (String × α)) :
    ∀ (order : List String) (env : List (String × α)),
      sampleGo entries draws order env = .ok s →
      paramsOkGo entries draws order env = true →
      (env.map Prod.fst ++ order).Nodup →
      (∀ k ∈ order, 0 ≤ draws k ∧ draws k ≤ 1) →
      (∀ k ∈ order, ∀ (e : PriorEntry α) (p : Params α) (x : α),
        entries.lookup k = some e → PriorEntry.paramsAt e s = .ok p →
        List.lookup k s = some x →
        theta.get? (keys.indexOf k) = some (uniformCdf p x)) →
      rescaleGo entries keys theta order env = .ok s := by
  intro order
  induction order with
  | nil =>
    intro env h _ _ _ _
    exact h
  | cons k ks ih =>
    intro env h hok hnd hdr hθ
    cases he : entries.lookup k with
    | none => simp [sampleGo, he] at h
    | some e =>
      cases hp : e.paramsAt env with
      | error err => simp [sampleGo, he, hp] at h
      | ok p =>
        have h : sampleGo entries draws ks
            (env ++ [(k, uniformRescale p (draws k))]) = .ok s := by
          rw [← h]; simp [sampleGo, he, hp]
        simp only [paramsOkGo, he, hp, Bool.and_eq_true,
          decide_eq_true_eq] at hok
        obtain ⟨hlt', hok'⟩ := hok
        set x : α := uniformRescale p (draws k) with hxdef
        obtain ⟨tail, hs, -⟩ := sampleGo_extends entries draws ks
          (env ++ [(k, x)]) s h
        have hkenv : k ∉ env.map Prod.fst :=
          fun hc => List.disjoint_of_nodup_append hnd hc
            (List.mem_cons_self k ks)
        have hsplit : s = env ++ ((k, x) :: tail) := by
          rw [hs, List.append_assoc]; rfl
        have hxs : List.lookup k s = some x := by
          rw [hsplit, lookup_append_right env _ k hkenv]
          simp [List.lookup]
        have hps : PriorEntry.paramsAt e s = .ok p := by
          rw [hsplit]; exact paramsAt_append e env _ p hp
        have hθk := hθ k (List.mem_cons_self k ks) e p x he hps hxs
        have hcdf : uniformCdf p x = draws k :=
          uniform_cdf_rescale p (draws k) hlt'
            (hdr k (List.mem_cons_self k ks)).1
            (hdr k (List.mem_cons_self k ks)).2
        simp only [rescaleGo, he, hp, hθk, hcdf]
        rw [← hxdef]
        refine ih (env ++ [(k, x)]) h hok' ?_ ?_ ?_
        · rw [List.map_append]
          rw [List.append_assoc]
          simpa using hnd
        · exact fun k' hk' => hdr k' (List.mem_cons_of_mem k hk')
        · exact fun k' hk' => hθ k' (List.mem_cons_of_mem k hk')

omit [LinearOrderedField α] in
/-- A successful dependency resolution on a duplicate-free collection yields
a duplicate-free order. -/
lemma sortedKeys_nodup (d : PriorDict α) (order : List String)
    (hnodup : (d.entries.map Prod.fst).Nodup) (hres : d.sortedKeys = .ok order) :
    order.Nodup := by
  have hnd0 : (d.unconditionalKeys ++ d.conditionalPairs.map Prod.fst).Nodup :=
    (uncond_condPairs_perm d).nodup_iff.mpr hnodup
  have hdisj := List.disjoint_of_nodup_append hnd0
  rw [PriorDict.sortedKeys] at hres
  exact (resolveLoop_topological d.conditionalPairs
    d.conditionalPairs.length d.unconditionalKeys d.conditionalPairs order
    hres hnd0 (fun kr h => h) (fun kr h => Or.inr h)
    (fun kr hkrc hkres =>
      False.elim (hdisj hkres (List.mem_map_of_mem Prod.fst hkrc)))).1

/-- Claim C2: for every collection (with distinct keys), every run of
`sample()` whose uniform draws lie in `[0,1]` and whose realized parameters
are all nondegenerate satisfies the round-trip law
`rescale(s.keys(), cdf(s).values()) == list(s.values())`: the
collection-level `cdf` and `rescale` are mutual inverses, with dependency
values threaded in topological order. -/
theorem rescale_cdf_roundtrip (d : PriorDict α) (draws : String → α)
    (s cs : List (String × α))
    (hnodup : (d.entries.map Prod.fst).Nodup)
    (hdraws : ∀ k, 0 ≤ draws k ∧ draws k ≤ 1)
    (hsample : d.sample draws = .ok s)
    (hok : d.sampleParamsOk draws = true)
    (hcdf : d.cdf s = .ok cs) :
    d.rescale (s.map Prod.fst) (cs.map Prod.snd) = .ok (s.map Prod.snd) := by
  cases hord : d.sortedKeys with
  | error err =>
    rw [PriorDict.sample, hord] at hsample
    exact absurd hsample (by simp)
  | ok order =>
    rw [PriorDict.sample, hord] at hsample
    rw [PriorDict.cdf, hord] at hcdf
    rw [PriorDict.sampleParamsOk, hord] at hok
    have hsg : sampleGo d.entries draws order [] = .ok s := hsample
    have hcg : cdfGo d.entries s order = .ok cs := hcdf
    have hokg : paramsOkGo d.entries draws order [] = true := hok
    have hordnd : order.Nodup := sortedKeys_nodup d order hnodup hord
    obtain ⟨tail, hs0, hsfst⟩ := sampleGo_extends d.entries draws order [] s hsg
    rw [List.nil_append] at hs0
    rw [← hs0] at hsfst
    clear hs0 tail
    obtain ⟨hcsfst, hpt⟩ := cdfGo_spec d.entries s order cs hcg hordnd
    have hθ : ∀ k ∈ order, ∀ (e : PriorEntry α) (p : Params α) (x : α),
        d.entries.lookup k = some e → PriorEntry.paramsAt e s = .ok p →
        List.lookup k s = some x →
        (cs.map Prod.snd).get? ((s.map Prod.fst).indexOf k) =
          some (uniformCdf p x) := by
      intro k hk e p x h1 h2 h3
      obtain ⟨e', p', x', g1, g2, g3, g4⟩ := hpt k hk
      obtain rfl : e' = e := Option.some.inj (g1 ▸ h1)
      obtain rfl : p' = p := by
        have := g2 ▸ h2
        exact (Except.ok.inj this)
      obtain rfl : x' = x := Option.some.inj (g3 ▸ h3)
      rw [hsfst, ← hcsfst]
      rw [get_map_snd_indexOf cs k (by rw [hcsfst]; exact hk)]
      exact g4
    have hrg : rescaleGo d.entries (s.map Prod.fst) (cs.map Prod.snd)
        order [] = .ok s :=
      rescaleGo_inverts_sampleGo d.entries draws (s.map Prod.fst)
        (cs.map Prod.snd) s order [] hsg hokg (by simpa using hordnd)
        (fun k _ => hdraws k) hθ
    have hfilter : (order.filter fun k => (s.map Prod.fst).contains k) =
        order := by
      rw [List.filter_eq_self]
      intro a ha
      rw [hsfst]
      simpa using ha
    simp only [PriorDict.rescale, hord, hfilter, hrg,
      mapM_lookup_self s (by rw [hsfst]; exact hordnd)]

/-- Witness for C2: the round trip on the test chain with every uniform draw
fixed at `0.5` (sample `[0.5, 0.25, 0.125, 0.0625]`, cdf values all
`0.5`). -/
theorem rescale_cdf_roundtrip_witness :
    (chainDict ℚ).rescale
        (([("var_0", (1:ℚ)/2), ("var_1", 1/4), ("var_2", 1/8),
          ("var_3", 1/16)]).map Prod.fst)
        (([("var_0", (1:ℚ)/2), ("var_1", 1/2), ("var_2", 1/2),
          ("var_3", 1/2)]).map Prod.snd) =
      .ok (([("var_0", (1:ℚ)/2), ("var_1", 1/4), ("var_2", 1/8),
          ("var_3", 1/16)]).map Prod.snd) :=
  rescale_cdf_roundtrip (chainDict ℚ) (fun _ => 1/2)
    [("var_0", 1/2), ("var_1", 1/4), ("var_2", 1/8), ("var_3", 1/16)]
    [("var_0", 1/2), ("var_1", 1/2), ("var_2", 1/2), ("var_3", 1/2)]
    (by decide)
    (fun k => ⟨by norm_num, by norm_num⟩)
    (by
      simp [chainDict, PriorDict.sample, PriorDict.sortedKeys,
        PriorDict.conditionalPairs, PriorDict.unconditionalKeys,
        resolveLoop, sampleGo, PriorEntry.paramsAt, List.lookup,
        List.mapM, List.mapM.loop, uniformRescale, Option.bind,
        List.getD, Option.getD, List.getElem?_cons_succ,
        List.getElem?_cons_zero]
      norm_num)
    (by
      simp [chainDict, PriorDict.sampleParamsOk, PriorDict.sortedKeys,
        PriorDict.conditionalPairs, PriorDict.unconditionalKeys,
        resolveLoop, paramsOkGo, PriorEntry.paramsAt, List.lookup,
        List.mapM, List.mapM.loop, uniformRescale, Option.bind,
        List.getD, Option.getD, List.getElem?_cons_succ,
        List.getElem?_cons_zero])
    (by
      simp [chainDict, PriorDict.cdf, PriorDict.sortedKeys,
        PriorDict.conditionalPairs, PriorDict.unconditionalKeys,
        resolveLoop, cdfGo, PriorEntry.paramsAt, List.lookup,
        List.mapM, List.mapM.loop, uniformCdf, Option.bind,
        List.getD, Option.getD, List.getElem?_cons_succ,
        List.getElem?_cons_zero, min_def, max_def]
      norm_num)

/-! ## The product law prob = exp(ln_prob) (claim C3) -/

/-- A product of positive reals is the exponential of the sum of their
logarithms. -/
lemma prod_eq_exp_sum_log (fs : List ℝ) (h : ∀ x ∈ fs, 0 < x) :
    fs.prod = Real.exp ((fs.map Real.log).sum) := by
  induction fs with
  | nil => simp
  | cons a l ih =>
    rw [List.prod_cons, List.map_cons, List.sum_cons, Real.exp_add,
      ih (fun x hx => h x (List.mem_cons_of_mem a hx)),
      Real.exp_log (h a (List.mem_cons_self a l))]

/-- Claim C3: for every collection and every valid sample (one whose
per-variable conditional densities are all positive, i.e. a sample inside the
support), `prob(sample) = exp(ln_prob(sample))`: the product of conditional
densities is the exponential of the sum of conditional log-densities, under
the same dependency threading (both are computed from the same factor
list). -/
theorem prob_eq_exp_lnProb (d : PriorDict ℝ) (sample : List (String × ℝ))
    (fs : List ℝ) (hf : d.probFactors sample = .ok fs)
    (hpos : ∀ x ∈ fs, 0 < x) :
    d.prob sample = (d.lnProb sample).map Real.exp := by
  rw [PriorDict.prob, PriorDict.lnProb, hf]
  simp only [Except.map]
  rw [prod_eq_exp_sum_log fs hpos]

/-- Witness for C3: the product law at the test chain and `test_sample`. -/
theorem prob_eq_exp_lnProb_witness :
    (chainDict ℝ).prob (testSample ℝ) =
      ((chainDict ℝ).lnProb (testSample ℝ)).map Real.exp :=
  prob_eq_exp_lnProb (chainDict ℝ) (testSample ℝ)
    [uniformProb ⟨0, 1⟩ (7/10), uniformProb ⟨0, 7/10⟩ (6/10),
     uniformProb ⟨0, 6/10⟩ (5/10), uniformProb ⟨0, 5/10⟩ (4/10)]
    rfl
    (by
      intro x hx
      simp only [List.mem_cons, List.not_mem_nil, or_false] at hx
      rcases hx with rfl | rfl | rfl | rfl <;> norm_num [uniformProb])

/-! ## The checkpoint-loop trace structure (claim C10) -/

/-- Structure of a terminating `ddLoop` run started with a consistent
`old_ncall` (`old_ncall = ncall s`, as established by the code before the
loop and after every productive iteration): the trace is a sequence of
productive iterations — each a `run_nested` call that increased `ncall`,
followed by a `write_current_state` — closed by one final `run_nested` call
that left `ncall` unchanged and wrote no state, and the `maxcall` budget of
the `i`-th `run_nested` call is the initial budget plus `(i+1)` checkpoint
increments. -/
lemma ddLoop_structure {S : Type} (cfg : DDConfig S)
    (hmono : ∀ (m : ℕ) (t : S), cfg.ncall t ≤ cfg.ncall (cfg.runNested m t)) :
    ∀ (fuel maxcall : ℕ) (s sf : S) (tr : List DDEvent),
      ddLoop cfg fuel maxcall (cfg.ncall s) s = some (sf, tr) →
      ∃ (iters : List (ℕ × ℕ × ℕ)) (bfin : ℕ),
        tr = (iters.map fun i =>
            [DDEvent.runNested i.1 i.2.1 i.2.2, DDEvent.writeState]).flatten
          ++ [DDEvent.runNested
                (maxcall + (iters.length + 1) * cfg.nCheckPoint) bfin bfin]
        ∧ (∀ i ∈ iters, i.2.1 < i.2.2)
        ∧ (∀ (j : ℕ) (hj : j < iters.length),
            (iters.get ⟨j, hj⟩).1 = maxcall + (j + 1) * cfg.nCheckPoint)
        ∧ cfg.ncall sf = bfin := by
  intro fuel
  induction fuel with
  | zero =>
    intro maxcall s sf tr h
    simp [ddLoop] at h
  | succ n ih =>
    intro maxcall s sf tr h
    simp only [ddLoop] at h
    by_cases hc :
        cfg.ncall (cfg.runNested (maxcall + cfg.nCheckPoint) s) = cfg.ncall s
    · rw [if_pos hc] at h
      obtain ⟨hsf, htr⟩ := Prod.mk.injEq .. ▸ Option.some.inj h
      refine ⟨[], cfg.ncall s, ?_, by simp, by simp, ?_⟩
      · simp [← htr, hc, one_mul]
      · rw [← hsf, hc]
    · rw [if_neg hc] at h
      cases hrec : ddLoop cfg n (maxcall + cfg.nCheckPoint)
          (cfg.ncall (cfg.runNested (maxcall + cfg.nCheckPoint) s))
          (cfg.runNested (maxcall + cfg.nCheckPoint) s) with
      | none => rw [hrec] at h; exact absurd h (by simp)
      | some pr =>
        obtain ⟨sf', tr'⟩ := pr
        rw [hrec] at h
        obtain ⟨hsf, htr⟩ := Prod.mk.injEq .. ▸ Option.some.inj h
        obtain ⟨iters, bfin, htr', hprod, hmax, hfin⟩ :=
          ih (maxcall + cfg.nCheckPoint)
            (cfg.runNested (maxcall + cfg.nCheckPoint) s) sf' tr' hrec
        refine ⟨(maxcall + cfg.nCheckPoint, cfg.ncall s,
            cfg.ncall (cfg.runNested (maxcall + cfg.nCheckPoint) s)) :: iters,
          bfin, ?_, ?_, ?_, ?_⟩
        · rw [← htr, htr']
          have harith :
              maxcall + cfg.nCheckPoint + (iters.length + 1) * cfg.nCheckPoint =
                maxcall + (iters.length + 1 + 1) * cfg.nCheckPoint := by ring
          simp only [List.map_cons, List.flatten_cons, List.length_cons,
            List.cons_append, List.nil_append, List.append_assoc, harith]
        · intro i hi
          rcases List.mem_cons.mp hi with hi | hi
          · subst hi
            exact lt_of_le_of_ne (hmono _ _) (fun he => hc he.symm)
          · exact hprod i hi
        · intro j hj
          cases j with
          | zero => simp
          | succ j =>
            have hj' : j < iters.length := Nat.lt_of_succ_lt_succ hj
            have := hmax j hj'
            simp only [List.get_cons_succ, this]
            ring
        · rw [← hsf]; exact hfin

/-- Claim C10: in `DynamicDynesty`'s checkpointed run loop, each iteration
increases the `maxcall` budget by `n_check_point` before invoking
`run_nested` (the `i`-th invocation runs with the initial `n_check_point`
plus `(i+1)` increments); the loop never exits while an iteration increases
`sampler.ncall` — after every such productive iteration the current state is
written — and it exits exactly when an iteration leaves `sampler.ncall`
unchanged, writing no state for that iteration; after the loop the resume
checkpoint is removed before the sampler's results (final state) are
returned. -/
theorem checkpoint_loop_trace {S : Type} (cfg : DDConfig S) (fuel : ℕ)
    (s sf : S) (tr : List DDEvent)
    (hmono : ∀ (m : ℕ) (t : S), cfg.ncall t ≤ cfg.ncall (cfg.runNested m t))
    (h : runExternalSamplerWithCheckpointing cfg fuel s = some (sf, tr)) :
    ∃ (iters : List (ℕ × ℕ × ℕ)) (bfin : ℕ),
      tr = (iters.map fun i =>
          [DDEvent.runNested i.1 i.2.1 i.2.2, DDEvent.writeState]).flatten
        ++ [DDEvent.runNested
              (cfg.nCheckPoint + (iters.length + 1) * cfg.nCheckPoint)
              bfin bfin,
            DDEvent.removeCheckpoint]
      ∧ (∀ i ∈ iters, i.2.1 < i.2.2)
      ∧ (∀ (j : ℕ) (hj : j < iters.length),
          (iters.get ⟨j, hj⟩).1 = cfg.nCheckPoint + (j + 1) * cfg.nCheckPoint)
      ∧ cfg.ncall sf = bfin := by
  rw [runExternalSamplerWithCheckpointing] at h
  cases hrec : ddLoop cfg fuel cfg.nCheckPoint (cfg.ncall s) s with
  | none => rw [hrec] at h; exact absurd h (by simp)
  | some pr =>
    obtain ⟨sf', tr'⟩ := pr
    rw [hrec] at h
    obtain ⟨hsf, htr⟩ := Prod.mk.injEq .. ▸ Option.some.inj h
    obtain ⟨iters, bfin, htr', hprod, hmax, hfin⟩ :=
      ddLoop_structure cfg hmono fuel cfg.nCheckPoint s sf' tr' hrec
    refine ⟨iters, bfin, ?_, hprod, hmax, by rw [← hsf]; exact hfin⟩
    rw [← htr, htr', List.append_assoc]
    rfl

/-- Witness for C10: the loop on a concrete abstract sampler over `S = ℕ`
(`ncall` the state itself, `run_nested maxcall t = max t (min maxcall 3)`,
`n_check_point = 1`) terminates within fuel 5 from state 0 with the expected
two productive iterations and final stalled iteration. -/
theorem checkpoint_loop_trace_witness :
    ∃ (iters : List (ℕ × ℕ × ℕ)) (bfin : ℕ),
      ([DDEvent.runNested 2 0 2, DDEvent.writeState,
        DDEvent.runNested 3 2 3, DDEvent.writeState,
        DDEvent.runNested 4 3 3, DDEvent.removeCheckpoint]) =
        (iters.map fun i =>
            [DDEvent.runNested i.1 i.2.1 i.2.2, DDEvent.writeState]).flatten
          ++ [DDEvent.runNested (1 + (iters.length + 1) * 1) bfin bfin,
              DDEvent.removeCheckpoint]
      ∧ (∀ i ∈ iters, i.2.1 < i.2.2)
      ∧ (∀ (j : ℕ) (hj : j < iters.length),
          (iters.get ⟨j, hj⟩).1 = 1 + (j + 1) * 1)
      ∧ (3 : ℕ) = bfin :=
  checkpoint_loop_trace
    (⟨1, fun m t => max t (min m 3), fun t => t⟩ : DDConfig ℕ) 5 0 3
    [DDEvent.runNested 2 0 2, DDEvent.writeState,
     DDEvent.runNested 3 2 3, DDEvent.writeState,
     DDEvent.runNested 4 3 3, DDEvent.removeCheckpoint]
    (fun m t => Nat.le_max_left t (min m 3))
    (by decide)

end Bilby
